import Mathlib

/- Verification of the tfl-lump catalogue fetcher.  The core under study is
   the rate-limited transport (client.py, class RateLimit), the entity stores
   (stores.py: Store, StopPointStore, LineStore) and the fetch orchestrator
   (LineStore.fetch).  The embedding is shallow: timestamps are rationals,
   the pickle files are values held in an explicit file-system record (pickle
   round-trips are modelled as exact storage), and the remote API together
   with the pydantic validators — both outside the specified core — are an
   explicit environment of fallible functions.  Sleeping is modelled by
   constraints on the sequence of clock readings a call consumes. -/

/-! Python dictionaries with string keys, insertion ordered, as association
    lists.  `keyMem` is the `in` operator, `List.lookup` is `.get`. -/

def keyMem (k : String) (d : List (String × α)) : Bool :=
  d.any (fun p => p.1 == k)

/-! StopPointStore (stores.py).  A stop point is its NaPTAN id plus the rest
    of the validated payload, kept opaque. -/

structure StopPoint where
  id : String
  payload : String
deriving DecidableEq

abbrev SPData := List (String × StopPoint)

/-- StopPointStore.add_stop_points: insert each stop point whose id is not
already a key; the returned flag is `dirty`, i.e. whether `self.save()` ran. -/
def StopPointStore.add_stop_points (data : SPData) (stoppoints : List StopPoint) :
    SPData × Bool :=
  stoppoints.foldl
    (fun acc sp => if keyMem sp.id acc.1 then acc else (acc.1 ++ [(sp.id, sp)], true))
    (data, false)

/-- Number of entities actually inserted by one add_stop_points call (the
observable behind the `dirty` flag: dirty is set exactly when this is
non-zero). -/
def StopPointStore.insertedCount (data : SPData) (stoppoints : List StopPoint) : Nat :=
  (StopPointStore.add_stop_points data stoppoints).1.length - data.length

/-! Line catalogue and the on-disk state of one store.  `canonical` is
    `storename.pkl`, `temp` the checkpoint file `storename_temp.pkl`. -/

structure Line where
  id : String
  payload : String
deriving DecidableEq

abbrev Catalogue := List (String × Line)

structure FS where
  canonical : Option Catalogue
  temp : Option Catalogue
deriving DecidableEq

/-- Store.save with the default filename: overwrite the canonical snapshot. -/
def Store.save (fs : FS) (data : Catalogue) : FS :=
  { fs with canonical := some data }

/-- Store.load: deserialize the snapshot if present, otherwise call the
store's fetch() hook and persist what it returned. -/
def Store.load (fetchHook : FS → Catalogue × FS) (fs : FS) : Catalogue × FS :=
  match fs.canonical with
  | some d => (d, fs)
  | none =>
      let r := fetchHook fs
      (r.1, Store.save r.2 r.1)

/-! The orchestrator (LineStore.fetch).  A line stub from the collection
    endpoint is its id plus the directions of its routeSections; a
    RouteSequence keeps the three merged attributes.  The environment holds
    the HTTP transport (`request`, which is `self.request`: get plus
    raise_for_status) and the pydantic validators, all fallible; `J` is the
    type of raw JSON payloads. -/

structure Stub where
  id : String
  sections : List String
deriving DecidableEq

structure RouteSeq where
  is_outbound_only : Bool
  line_strings : List String
  ordered_line_routes : List (List String)
deriving DecidableEq

structure Env (J : Type) where
  request : String → Except String J
  parseStubs : J → Except String (List Stub)
  stopPointSeqs : J → Except String (List J)
  validateStopPoints : J → Except String (List StopPoint)
  validateRouteSeq : J → Except String RouteSeq
  validateLine : Stub → List RouteSeq → Except String Line

def seqEndpoint (lineId direction : String) : String :=
  "/Line/" ++ lineId ++ "/Route/Sequence/" ++ direction

def collectionEndpoint (mode : String) : String :=
  "/Line/Mode/" ++ mode ++ "/Route?serviceTypes=Regular,Night"

/-- Mutable state threaded through a fetch run: the accumulating catalogue
`temp`, the stop-point store's mapping, plus two observables: the endpoints
requested so far and the ids of the stubs whose processing branch ran. -/
structure OrchSt where
  temp : Catalogue
  sp : SPData
  trace : List String
  processed : List String
deriving DecidableEq

/-- Loop `for seq in seq_dict["stopPointSequences"]`: validate each batch of
stop-point payloads and register it with the stop-point index. -/
def addAllStopPoints (env : Env J) : OrchSt → List J → OrchSt × Except String Unit
  | st, [] => (st, Except.ok ())
  | st, spJson :: rest =>
    match env.validateStopPoints spJson with
    | Except.error e => (st, Except.error e)
    | Except.ok sps =>
        addAllStopPoints env
          { st with sp := (StopPointStore.add_stop_points st.sp sps).1 } rest

/-- One route section: request the direction-scoped sequence, register its
stop points, then validate the sequence whose attributes get merged. -/
def processSection (env : Env J) (st : OrchSt) (lineId direction : String) :
    OrchSt × Except String RouteSeq :=
  let st1 := { st with trace := st.trace ++ [seqEndpoint lineId direction] }
  match env.request (seqEndpoint lineId direction) with
  | Except.error e => (st1, Except.error e)
  | Except.ok seqJson =>
    match env.stopPointSeqs seqJson with
    | Except.error e => (st1, Except.error e)
    | Except.ok spSeqs =>
      match addAllStopPoints env st1 spSeqs with
      | (st2, Except.error e) => (st2, Except.error e)
      | (st2, Except.ok _) =>
        match env.validateRouteSeq seqJson with
        | Except.error e => (st2, Except.error e)
        | Except.ok rs => (st2, Except.ok rs)

/-- Loop `for section in line_dict["routeSections"]`, accumulating the merged
sequences in section order. -/
def processSections (env : Env J) (lineId : String) :
    OrchSt → List String → List RouteSeq → OrchSt × Except String (List RouteSeq)
  | st, [], acc => (st, Except.ok acc)
  | st, direction :: rest, acc =>
    match processSection env st lineId direction with
    | (st1, Except.error e) => (st1, Except.error e)
    | (st1, Except.ok rs) => processSections env lineId st1 rest (acc ++ [rs])

/-- Body of the stub loop: handle every section then validate the merged
line payload. -/
def processStub (env : Env J) (st : OrchSt) (stub : Stub) :
    OrchSt × Except String Line :=
  match processSections env stub.id st stub.sections [] with
  | (st1, Except.error e) => (st1, Except.error e)
  | (st1, Except.ok seqs) =>
    match env.validateLine stub seqs with
    | Except.error e => (st1, Except.error e)
    | Except.ok line => (st1, Except.ok line)

/-- Loop `for line_dict in line_list`: skip stubs already in temp, index the
validated line under `line.id`. -/
def runStubs (env : Env J) : OrchSt → List Stub → OrchSt × Except String Unit
  | st, [] => (st, Except.ok ())
  | st, stub :: rest =>
    if keyMem stub.id st.temp then runStubs env st rest
    else
      match processStub env { st with processed := st.processed ++ [stub.id] } stub with
      | (st1, Except.error e) => (st1, Except.error e)
      | (st1, Except.ok line) =>
          runStubs env { st1 with temp := st1.temp ++ [(line.id, line)] } rest

/-- Result of one LineStore.fetch run.  `result` is the Python return value;
`errorMsg` is ghost information recording the exception the bare
`except Exception` clause swallowed, if any. -/
structure FetchOut where
  result : Catalogue
  fs : FS
  st : OrchSt
  errorMsg : Option String
deriving DecidableEq

/-- LineStore.fetch: read the checkpoint into temp if present, request the
collection endpoint, run the stub loop; on any exception write temp to the
checkpoint file and return the empty dict, otherwise unlink the checkpoint
and return temp. -/
def LineStore.fetch (env : Env J) (mode : String) (fs : FS) (sp0 : SPData) :
    FetchOut :=
  let temp0 := fs.temp.getD []
  let st0 : OrchSt :=
    { temp := temp0, sp := sp0, trace := [collectionEndpoint mode], processed := [] }
  match env.request (collectionEndpoint mode) with
  | Except.error e =>
      { result := [], fs := { fs with temp := some st0.temp }, st := st0,
        errorMsg := some e }
  | Except.ok j =>
    match env.parseStubs j with
    | Except.error e =>
        { result := [], fs := { fs with temp := some st0.temp }, st := st0,
          errorMsg := some e }
    | Except.ok stubs =>
      match runStubs env st0 stubs with
      | (st1, Except.error e) =>
          { result := [], fs := { fs with temp := some st1.temp }, st := st1,
            errorMsg := some e }
      | (st1, Except.ok _) =>
          { result := st1.temp, fs := { fs with temp := none }, st := st1,
            errorMsg := none }

/-- Result of one Store.load call on a LineStore; `fetched` is ghost
information recording whether the fetch() hook ran. -/
structure LoadOut where
  result : Catalogue
  fs : FS
  st : OrchSt
  fetched : Bool
deriving DecidableEq

/-- Store.load as inherited by LineStore: use the snapshot when it exists,
otherwise fetch and persist whatever fetch returned as the new canonical
snapshot. -/
def LineStore.load (env : Env J) (mode : String) (fs : FS) (sp0 : SPData) :
    LoadOut :=
  match fs.canonical with
  | some d =>
      { result := d, fs := fs,
        st := { temp := [], sp := sp0, trace := [], processed := [] },
        fetched := false }
  | none =>
      let out := LineStore.fetch env mode fs sp0
      { result := out.result, fs := Store.save out.fs out.result, st := out.st,
        fetched := true }

/-- Collection endpoint of the lump variant (lump/stores.py LineStore):
`self.endpoint` is assigned a literal that ignores the mode argument. -/
def lump_LineStore_endpoint (mode : String) : String :=
  "/Line/Mode/bus/Route?serviceTypes=Regular,Night"

/-- lump LineStore.load: no snapshot means fetching inline — the hard-coded
endpoint, only `line_list[0:3]`, no exception handler and no checkpoint; an
exception propagates (the `Sum.inr` case). -/
def lump_LineStore_load (env : Env J) (mode : String) (fs : FS) (sp0 : SPData) :
    LoadOut ⊕ (String × OrchSt) :=
  match fs.canonical with
  | some d =>
      Sum.inl { result := d, fs := Store.save fs d,
                st := { temp := [], sp := sp0, trace := [], processed := [] },
                fetched := false }
  | none =>
    let st0 : OrchSt :=
      { temp := [], sp := sp0, trace := [lump_LineStore_endpoint mode],
        processed := [] }
    match env.request (lump_LineStore_endpoint mode) with
    | Except.error e => Sum.inr (e, st0)
    | Except.ok j =>
      match env.parseStubs j with
      | Except.error e => Sum.inr (e, st0)
      | Except.ok stubs =>
        match runStubs env st0 (stubs.take 3) with
        | (st1, Except.error e) => Sum.inr (e, st1)
        | (st1, Except.ok _) =>
            Sum.inl { result := st1.temp, fs := Store.save fs st1.temp, st := st1,
                      fetched := true }

/-- The pydantic Line validator keeps the id of the payload it was given, so
the key `line.id` used for indexing equals the stub id that was checked
against temp. -/
def IdConsistent (env : Env J) : Prop :=
  ∀ stub seqs line, env.validateLine stub seqs = Except.ok line → line.id = stub.id

/-! The rate-limited transport (client.py, class RateLimit).  Clock readings
    are rationals; `datetime.now` is modelled by the readings a call
    consumes, constrained to be monotone and to respect the sleeps. -/

structure RLState where
  history : List ℚ
  prev : ℚ
deriving DecidableEq

/-- Derived debounce interval set in RateLimit's constructor. -/
def RateLimit.debounceInterval (max_requests : Nat) (request_period : ℚ) : ℚ :=
  (request_period / (max_requests : ℚ)) * 0.7

/-- Freshly constructed transport: empty deque, `_prev` set to the
construction-time reading. -/
def RateLimit.init (c0 : ℚ) : RLState :=
  { history := [], prev := c0 }

/-- Sleep duration of the debounce branch: the remaining difference when the
time since `_prev` is below the debounce interval, else no sleep. -/
def debounceWait (deb prev now : ℚ) : ℚ :=
  if now - prev < deb then deb - (now - prev) else 0

/-- Inner while loop: pop entries from the front while the oldest is more
than request_period old relative to `now`. -/
def evict (P : ℚ) (now : ℚ) : List ℚ → List ℚ
  | [] => []
  | t :: ts => if now - t > P then evict P now ts else t :: ts

/-- Admission loop `while len(self.history) >= self.MAX_REQUESTS`: slide the
window, and while still at capacity sleep (backoff) and refresh `now` from
the clock; `none` means the provided clock readings ran out before
admission (the real loop would keep waiting). -/
def admitLoop (M : Nat) (P : ℚ) (now : ℚ) (hist : List ℚ) (clock : List ℚ) :
    Option (List ℚ × ℚ) :=
  if hist.length < M then some (hist, now)
  else
    let h2 := evict P now hist
    if h2.length < M then some (h2, now)
    else
      match clock with
      | [] => none
      | t :: rest => admitLoop M P t h2 rest

/-- Inputs consumed by one handle_request call: the reading taken on entry
(`timestamp = now = datetime.now(...)`), the reading taken right after the
debounce sleep (stored into `_prev`), the readings the admission loop
refreshes `now` from, and the inner transport's outcome. -/
structure CallIn (ε ρ : Type) where
  r0 : ℚ
  r1 : ℚ
  clock : List ℚ
  inner : Except ε ρ

/-- RateLimit.handle_request: debounce (clock effect only), set `_prev`,
run the admission loop, forward to the inner transport, and append the
current `now` to history — the append is reached only when the inner
transport returned, an exception propagates before it. -/
def RateLimit.handle_request (M : Nat) (P : ℚ) (st : RLState) (c : CallIn ε ρ) :
    Option (RLState × Except ε ρ × ℚ) :=
  match admitLoop M P c.r1 st.history c.clock with
  | none => none
  | some (h, tEnd) =>
    match c.inner with
    | Except.error e => some ({ history := h, prev := c.r1 }, Except.error e, tEnd)
    | Except.ok r => some ({ history := h ++ [tEnd], prev := c.r1 }, Except.ok r, tEnd)

/-- A sequence of calls through one instance; each event records the issue
time (`_prev`) and, for counted calls, the appended timestamp. -/
def runCalls (M : Nat) (P : ℚ) :
    RLState → List (CallIn ε ρ) → Option (RLState × List (ℚ × Option ℚ))
  | st, [] => some (st, [])
  | st, c :: cs =>
    match RateLimit.handle_request M P st c with
    | none => none
    | some (st1, res, tEnd) =>
      match runCalls M P st1 cs with
      | none => none
      | some (stF, evs) =>
          some (stF,
            (c.r1, match res with
                   | Except.ok _ => some tEnd
                   | Except.error _ => none) :: evs)

/-- Last reading of the chain `x :: l`. -/
def chainLast (x : ℚ) : List ℚ → ℚ
  | [] => x
  | y :: ys => chainLast y ys

/-- The readings of a list are non-decreasing. -/
def chainMono : List ℚ → Bool
  | [] => true
  | [_] => true
  | a :: b :: rest => decide (a ≤ b) && chainMono (b :: rest)

/-- Clock validity of one call: real time has advanced past the previous
activity, the debounce sleep was respected, and the loop readings are
monotone. -/
def validCall (deb prev lastT : ℚ) (c : CallIn ε ρ) : Bool :=
  decide (lastT ≤ c.r0) &&
  decide (c.r0 + debounceWait deb prev c.r0 ≤ c.r1) &&
  chainMono (c.r1 :: c.clock)

/-- Clock validity of a whole run, threading `_prev` and the last reading. -/
def validRun (deb : ℚ) : ℚ → ℚ → List (CallIn ε ρ) → Bool
  | _, _, [] => true
  | prev, lastT, c :: cs =>
    validCall deb prev lastT c && validRun deb c.r1 (chainLast c.r1 c.clock) cs

/-- Timestamps counted in history: appended by successfully completed calls. -/
def Counted (evs : List (ℚ × Option ℚ)) : List ℚ :=
  evs.filterMap Prod.snd

/-- Membership of a trailing window of length P ending at t. -/
def inWindow (P t a : ℚ) : Bool :=
  decide (t - P < a) && decide (a ≤ t)

/-- How many counted timestamps fall in the trailing window ending at t. -/
def windowCount (P : ℚ) (A : List ℚ) (t : ℚ) : Nat :=
  (A.filter (inWindow P t)).length

/-- Spread property: timestamps M apart in the counted sequence differ by
more than P. -/
def WindowOK (M : Nat) (P : ℚ) (A : List ℚ) : Prop :=
  ∀ (i j : Nat) (hi : i < A.length) (hj : j < A.length),
    i + M ≤ j → A.get ⟨i, hi⟩ + P < A.get ⟨j, hj⟩

/-- Decidable equality for Except, so concrete executions can be checked by
`decide`. -/
instance [DecidableEq ε] [DecidableEq α] : DecidableEq (Except ε α)
  | Except.ok x, Except.ok y => decidable_of_iff (x = y) (by simp)
  | Except.ok _, Except.error _ => isFalse (fun h => Except.noConfusion h)
  | Except.error _, Except.ok _ => isFalse (fun h => Except.noConfusion h)
  | Except.error x, Except.error y => decidable_of_iff (x = y) (by simp)

/-! Concrete environments used to instantiate theorems with hypotheses. -/

/-- Two-stub environment in which stub "a" processes fully (its single
section has no stop points) and stub "b"'s sequence request fails. -/
def envBFails : Env String :=
  { request := fun ep =>
      if ep == collectionEndpoint ("bus") then Except.ok ("col")
      else if ep == seqEndpoint ("a") ("outbound") then Except.ok ("seqA")
      else Except.error ("transport failure"),
    parseStubs := fun j =>
      if j == "col" then Except.ok ([⟨"a", ["outbound"]⟩, ⟨"b", ["outbound"]⟩])
      else Except.error ("parse failure"),
    stopPointSeqs := fun _ => Except.ok ([]),
    validateStopPoints := fun _ => Except.error ("unused"),
    validateRouteSeq := fun j =>
      if j == "seqA" then Except.ok ⟨false, [], []⟩
      else Except.error ("validation failure"),
    validateLine := fun stub _ => Except.ok ⟨stub.id, ""⟩ }

/-- Four-stub environment in which every stub succeeds (stubs carry no route
sections, so no per-line requests are needed). -/
def envFour : Env String :=
  { request := fun ep =>
      if ep == collectionEndpoint ("bus") then Except.ok ("col")
      else Except.error ("transport failure"),
    parseStubs := fun j =>
      if j == "col" then
        Except.ok ([⟨"a", []⟩, ⟨"b", []⟩, ⟨"c", []⟩, ⟨"d", []⟩])
      else Except.error ("parse failure"),
    stopPointSeqs := fun _ => Except.error ("unused"),
    validateStopPoints := fun _ => Except.error ("unused"),
    validateRouteSeq := fun _ => Except.error ("unused"),
    validateLine := fun stub _ => Except.ok ⟨stub.id, ""⟩ }

/-! Theorems.  Small list and store facts first, then one theorem (plus
    witness or counterexample) per specification claim. -/

theorem keyMem_append (k : String) (d1 d2 : List (String × α)) :
    keyMem k (d1 ++ d2) = (keyMem k d1 || keyMem k d2) := by
  simp [keyMem, List.any_append]

/-- C6: adding a stop point whose id is already a key of the index — even
with a different payload — leaves the whole mapping (hence its size and the
stored entry for that id) unchanged, performs zero insertions, and reports
nothing new: the dirty flag stays false, so no save is triggered. -/
theorem StopPointStore.add_stop_points_duplicate (data : SPData) (sp : StopPoint)
    (h : keyMem sp.id data = true) :
    (StopPointStore.add_stop_points data [sp]).1 = data ∧
    (StopPointStore.add_stop_points data [sp]).1.length = data.length ∧
    (StopPointStore.add_stop_points data [sp]).1.lookup sp.id = data.lookup sp.id ∧
    (StopPointStore.add_stop_points data [sp]).2 = false ∧
    StopPointStore.insertedCount data [sp] = 0 := by
  simp [StopPointStore.add_stop_points, StopPointStore.insertedCount, h]

/-- C6 witness: the concrete scenario with NaPTAN id "490010877H" and a
different payload registered under the same id. -/
theorem StopPointStore.add_stop_points_duplicate_witness :
    (StopPointStore.add_stop_points
        [("490010877H", { id := "490010877H", payload := "PeckhamBusStation" })]
        [{ id := "490010877H", payload := "DifferentPayload" }]).1
      = [("490010877H", { id := "490010877H", payload := "PeckhamBusStation" })] ∧
    StopPointStore.insertedCount
        [("490010877H", { id := "490010877H", payload := "PeckhamBusStation" })]
        [{ id := "490010877H", payload := "DifferentPayload" }] = 0 :=
  ⟨(StopPointStore.add_stop_points_duplicate _ _ (by decide)).1,
   (StopPointStore.add_stop_points_duplicate _ _ (by decide)).2.2.2.2⟩

/-- C8: save() followed by load() on a fresh store instance with the same
store name reproduces the identical mapping (the snapshot file is present,
so load deserializes exactly what save wrote). -/
theorem Store.save_load_roundtrip (fetchHook : FS → Catalogue × FS) (fs : FS)
    (data : Catalogue) :
    Store.load fetchHook (Store.save fs data) = (data, Store.save fs data) := rfl

/-- C1 (code behaviour at a failing input): stub "b"'s sequence request
raises mid-run; the partial catalogue (the processed stub "a") is persisted
to the checkpoint file, but the exception is swallowed by the bare
`except Exception` clause and the caller receives a plain empty dict — a
silent empty result rather than a signalled partial failure. -/
theorem LineStore.fetch_swallows_failure :
    (LineStore.fetch envBFails ("bus") { canonical := none, temp := none } []).errorMsg
        = some ("transport failure") ∧
    (LineStore.fetch envBFails ("bus") { canonical := none, temp := none } []).fs.temp
        = some [("a", { id := "a", payload := "" })] ∧
    (LineStore.fetch envBFails ("bus") { canonical := none, temp := none } []).result
        = [] := by
  decide

theorem LineStore.fetch_canonical_eq (env : Env J) (mode : String) (fs : FS)
    (sp0 : SPData) :
    (LineStore.fetch env mode fs sp0).fs.canonical = fs.canonical := by
  cases hreq : env.request (collectionEndpoint mode) with
  | error e => simp [LineStore.fetch, hreq]
  | ok j =>
    cases hp : env.parseStubs j with
    | error e => simp [LineStore.fetch, hreq, hp]
    | ok stubs =>
      rcases hrs : runStubs env
          { temp := fs.temp.getD [], sp := sp0,
            trace := [collectionEndpoint mode], processed := [] } stubs with ⟨st1, r⟩
      cases r with
      | error e => simp [LineStore.fetch, hreq, hp, hrs]
      | ok u => simp [LineStore.fetch, hreq, hp, hrs]

theorem LineStore.fetch_error_shape (env : Env J) (mode : String) (fs : FS)
    (sp0 : SPData)
    (hfail : (LineStore.fetch env mode fs sp0).errorMsg.isSome = true) :
    (LineStore.fetch env mode fs sp0).fs.temp
      = some (LineStore.fetch env mode fs sp0).st.temp ∧
    (LineStore.fetch env mode fs sp0).result = [] := by
  cases hreq : env.request (collectionEndpoint mode) with
  | error e => simp [LineStore.fetch, hreq]
  | ok j =>
    cases hp : env.parseStubs j with
    | error e => simp [LineStore.fetch, hreq, hp]
    | ok stubs =>
      rcases hrs : runStubs env
          { temp := fs.temp.getD [], sp := sp0,
            trace := [collectionEndpoint mode], processed := [] } stubs with ⟨st1, r⟩
      cases r with
      | error e => simp [LineStore.fetch, hreq, hp, hrs]
      | ok u => simp [LineStore.fetch, hreq, hp, hrs] at hfail

/-- C7: a failing fetch run leaves a previously persisted canonical snapshot
untouched: the orchestrator writes only the transient checkpoint file, and
the checkpoint receives the failed attempt's partial progress. -/
theorem LineStore.fetch_preserves_canonical (env : Env J) (mode : String)
    (fs : FS) (sp0 : SPData) (snap : Catalogue)
    (hsnap : fs.canonical = some snap)
    (hfail : (LineStore.fetch env mode fs sp0).errorMsg.isSome = true) :
    (LineStore.fetch env mode fs sp0).fs.canonical = some snap ∧
    (LineStore.fetch env mode fs sp0).fs.temp
      = some (LineStore.fetch env mode fs sp0).st.temp :=
  ⟨(LineStore.fetch_canonical_eq env mode fs sp0).trans hsnap,
   (LineStore.fetch_error_shape env mode fs sp0 hfail).1⟩

/-- C7 witness: concrete failing run over an existing snapshot. -/
theorem LineStore.fetch_preserves_canonical_witness :
    (LineStore.fetch envBFails ("bus")
        { canonical := some [("old", { id := "old", payload := "p" })], temp := none }
        []).fs.canonical = some [("old", { id := "old", payload := "p" })] ∧
    (LineStore.fetch envBFails ("bus")
        { canonical := some [("old", { id := "old", payload := "p" })], temp := none }
        []).fs.temp
      = some (LineStore.fetch envBFails ("bus")
          { canonical := some [("old", { id := "old", payload := "p" })], temp := none }
          []).st.temp :=
  LineStore.fetch_preserves_canonical envBFails ("bus")
    { canonical := some [("old", { id := "old", payload := "p" })], temp := none }
    [] [("old", { id := "old", payload := "p" })] rfl (by decide)

/-- C10: after a fetch run fails, load persists the empty dict fetch
returned as the canonical snapshot; any later load for the store — whatever
the checkpoint file then holds — reads the empty catalogue from the
canonical file, issues no request and never invokes fetch again. -/
theorem LineStore.load_failed_fetch_caches_empty (env : Env J) (mode : String)
    (fs : FS) (sp0 : SPData)
    (hcan : fs.canonical = none)
    (hfail : (LineStore.fetch env mode fs sp0).errorMsg.isSome = true) :
    (LineStore.load env mode fs sp0).result = [] ∧
    (LineStore.load env mode fs sp0).fs.canonical = some [] ∧
    (∀ (fs1 : FS) (sp1 : SPData), fs1.canonical = some [] →
      (LineStore.load env mode fs1 sp1).result = [] ∧
      (LineStore.load env mode fs1 sp1).fetched = false ∧
      (LineStore.load env mode fs1 sp1).st.trace = []) := by
  have hres : (LineStore.fetch env mode fs sp0).result = [] :=
    (LineStore.fetch_error_shape env mode fs sp0 hfail).2
  refine ⟨by simp [LineStore.load, hcan, hres],
          by simp [LineStore.load, hcan, Store.save, hres], ?_⟩
  intro fs1 sp1 h1
  exact ⟨by simp [LineStore.load, h1], by simp [LineStore.load, h1],
         by simp [LineStore.load, h1]⟩

/-- C10 witness: the concrete failing environment; the later load is probed
on a file system that still carries the non-empty checkpoint and is
oblivious to it. -/
theorem LineStore.load_failed_fetch_caches_empty_witness :
    (LineStore.load envBFails ("bus") { canonical := none, temp := none } []).result = [] ∧
    (LineStore.load envBFails ("bus")
        { canonical := some [], temp := some [("a", { id := "a", payload := "" })] }
        []).fetched = false :=
  ⟨(LineStore.load_failed_fetch_caches_empty envBFails ("bus")
      { canonical := none, temp := none } [] rfl (by decide)).1,
   ((LineStore.load_failed_fetch_caches_empty envBFails ("bus")
      { canonical := none, temp := none } [] rfl (by decide)).2.2
      { canonical := some [], temp := some [("a", { id := "a", payload := "" })] }
      [] rfl).2.1⟩

theorem evict_eq_drop (P v : ℚ) (l : List ℚ) :
    ∃ k, k ≤ l.length ∧ evict P v l = l.drop k ∧ ∀ e ∈ l.take k, e + P < v := by
  induction l with
  | nil => exact ⟨0, by simp [evict]⟩
  | cons t ts ih =>
    by_cases h : v - t > P
    · obtain ⟨k, hk, he, hb⟩ := ih
      refine ⟨k + 1, by simpa using hk, by simpa [evict, h] using he, ?_⟩
      intro e he'
      rw [List.take_succ_cons] at he'
      rcases List.mem_cons.mp he' with rfl | he'
      · linarith
      · exact hb e he'
    · exact ⟨0, by simp [evict, h]⟩

theorem admitLoop_suffix (M : Nat) (P : ℚ) :
    ∀ (clock : List ℚ) (v : ℚ) (hist h : List ℚ) (tEnd : ℚ),
      admitLoop M P v hist clock = some (h, tEnd) → ∃ k, h = hist.drop k := by
  intro clock
  induction clock with
  | nil =>
    intro v hist h tEnd hadm
    unfold admitLoop at hadm
    by_cases h1 : hist.length < M
    · simp only [if_pos h1, Option.some.injEq, Prod.mk.injEq] at hadm
      exact ⟨0, by simp [hadm.1.symm]⟩
    · simp only [if_neg h1] at hadm
      by_cases h2 : (evict P v hist).length < M
      · simp only [if_pos h2, Option.some.injEq, Prod.mk.injEq] at hadm
        obtain ⟨k, _, he, _⟩ := evict_eq_drop P v hist
        exact ⟨k, hadm.1 ▸ he.symm ▸ rfl⟩
      · simp only [if_neg h2] at hadm
        exact absurd hadm (by simp)
  | cons t rest ih =>
    intro v hist h tEnd hadm
    unfold admitLoop at hadm
    by_cases h1 : hist.length < M
    · simp only [if_pos h1, Option.some.injEq, Prod.mk.injEq] at hadm
      exact ⟨0, by simp [hadm.1.symm]⟩
    · simp only [if_neg h1] at hadm
      by_cases h2 : (evict P v hist).length < M
      · simp only [if_pos h2, Option.some.injEq, Prod.mk.injEq] at hadm
        obtain ⟨k, _, he, _⟩ := evict_eq_drop P v hist
        exact ⟨k, hadm.1 ▸ he.symm ▸ rfl⟩
      · simp only [if_neg h2] at hadm
        obtain ⟨k2, hk2⟩ := ih t (evict P v hist) h tEnd hadm
        obtain ⟨k, _, he, _⟩ := evict_eq_drop P v hist
        exact ⟨k + k2, by rw [hk2, he, List.drop_drop]⟩

/-- C4: when the inner transport raises, handle_request propagates the
failure unchanged and appends no timestamp to the history — the history
after the call is a suffix of the history before it (only window eviction
can have removed entries), so only successfully completed calls occupy a
slot of the rate budget. -/
theorem RateLimit.handle_request_failure_not_counted (M : Nat) (P : ℚ)
    (st : RLState) (c : CallIn ε ρ) (e : ε) (st1 : RLState) (res : Except ε ρ)
    (tEnd : ℚ)
    (hfail : c.inner = Except.error e)
    (h : RateLimit.handle_request M P st c = some (st1, res, tEnd)) :
    res = Except.error e ∧ ∃ k, st1.history = st.history.drop k := by
  unfold RateLimit.handle_request at h
  cases hadm : admitLoop M P c.r1 st.history c.clock with
  | none => rw [hadm] at h; exact absurd h (by simp)
  | some pr =>
    rcases pr with ⟨hl, tE⟩
    rw [hadm, hfail] at h
    simp only [Option.some.injEq, Prod.mk.injEq] at h
    obtain ⟨hst, hres, hte⟩ := h
    obtain ⟨k, hk⟩ := admitLoop_suffix M P c.clock c.r1 st.history hl tE hadm
    refine ⟨hres.symm, k, ?_⟩
    rw [← hst]
    exact hk

/-- C4 witness: a concrete call whose inner transport fails. -/
theorem RateLimit.handle_request_failure_not_counted_witness :
    (Except.error 7 : Except Nat Nat) = Except.error 7 ∧
    ∃ k, RLState.history { history := [], prev := 1 }
      = (RateLimit.init 0).history.drop k :=
  RateLimit.handle_request_failure_not_counted 2 10 (RateLimit.init 0)
    ⟨0, 1, [], Except.error 7⟩ 7 { history := [], prev := 1 } (Except.error 7) 1
    rfl (by decide)

theorem debounceWait_nonneg (deb prev now : ℚ) : 0 ≤ debounceWait deb prev now := by
  unfold debounceWait
  split <;> linarith

theorem debounce_le (deb prev r0 r1 : ℚ)
    (h : r0 + debounceWait deb prev r0 ≤ r1) : prev + deb ≤ r1 := by
  unfold debounceWait at h
  by_cases hc : r0 - prev < deb
  · rw [if_pos hc] at h; linarith
  · rw [if_neg hc] at h; push_neg at hc; linarith

theorem handle_request_prev (M : Nat) (P : ℚ) (st : RLState) (c : CallIn ε ρ)
    (st1 : RLState) (res : Except ε ρ) (tEnd : ℚ)
    (h : RateLimit.handle_request M P st c = some (st1, res, tEnd)) :
    st1.prev = c.r1 := by
  unfold RateLimit.handle_request at h
  cases hadm : admitLoop M P c.r1 st.history c.clock with
  | none => rw [hadm] at h; exact absurd h (by simp)
  | some pr =>
    rcases pr with ⟨hl, tE⟩
    simp only [hadm] at h
    cases hin : c.inner with
    | error e =>
      simp only [hin, Option.some.injEq, Prod.mk.injEq] at h
      rw [← h.1]
    | ok r =>
      simp only [hin, Option.some.injEq, Prod.mk.injEq] at h
      rw [← h.1]

theorem runCalls_spacing (M : Nat) (P deb : ℚ) :
    ∀ (calls : List (CallIn ε ρ)) (st : RLState) (lastT : ℚ) (stF : RLState)
      (evs : List (ℚ × Option ℚ)),
      runCalls M P st calls = some (stF, evs) →
      validRun deb st.prev lastT calls = true →
      List.Chain' (fun a b => a + deb ≤ b) (st.prev :: evs.map Prod.fst) := by
  intro calls
  induction calls with
  | nil =>
    intro st lastT stF evs hrun hval
    unfold runCalls at hrun
    simp only [Option.some.injEq, Prod.mk.injEq] at hrun
    rw [← hrun.2]
    simp
  | cons c cs ih =>
    intro st lastT stF evs hrun hval
    unfold runCalls at hrun
    cases hh : RateLimit.handle_request M P st c with
    | none => simp only [hh] at hrun; exact absurd hrun (by simp)
    | some out =>
      rcases out with ⟨st1, res, tEnd⟩
      simp only [hh] at hrun
      cases hr : runCalls M P st1 cs with
      | none => simp only [hr] at hrun; exact absurd hrun (by simp)
      | some pr =>
        rcases pr with ⟨stF2, evs2⟩
        simp only [hr, Option.some.injEq, Prod.mk.injEq] at hrun
        obtain ⟨-, hevs⟩ := hrun
        have hv : validCall deb st.prev lastT c = true ∧
            validRun deb c.r1 (chainLast c.r1 c.clock) cs = true := by
          simpa [validRun, Bool.and_eq_true] using hval
        have hdeb : c.r0 + debounceWait deb st.prev c.r0 ≤ c.r1 := by
          have := hv.1
          simp only [validCall, Bool.and_eq_true, decide_eq_true_eq] at this
          exact this.1.2
        have hprev1 : st1.prev = c.r1 := handle_request_prev M P st c st1 res tEnd hh
        have htail : List.Chain' (fun a b => a + deb ≤ b) (c.r1 :: evs2.map Prod.fst) := by
          have := ih st1 (chainLast c.r1 c.clock) stF2 evs2 hr (by rw [hprev1]; exact hv.2)
          rwa [hprev1] at this
        rw [← hevs]
        simp only [List.map_cons]
        exact List.Chain'.cons (debounce_le deb st.prev c.r0 c.r1 hdeb) htail

/-- C5 counterexample: `_prev` is initialised to the construction-time
reading, so the very first call is debounced against construction: with the
default parameters (max_requests 500, request_period 60) a first call whose
entry reading coincides with the construction reading sleeps for the full
debounce interval 0.084 s = 21/250 s — an enforced delay on the very first
call, contrary to the claim's exception clause. -/
theorem RateLimit.first_call_enforced_delay :
    debounceWait (RateLimit.debounceInterval 500 60) 0 0 = 21 / 250 ∧
    (0 : ℚ) < 21 / 250 := by
  constructor
  · norm_num [debounceWait, RateLimit.debounceInterval]
  · norm_num

/-- C5 amended: every pair of consecutive calls through one instance is
issued at least debounce_interval = (P/M)*0.7 apart, and the first call is
likewise debounced against the construction-time reading (it may incur an
enforced delay instead of being exempt): along the chain from the
construction reading through all issue times, adjacent entries are at least
debounce_interval apart. -/
theorem RateLimit.debounce_spacing (M : Nat) (P : ℚ) (c0 : ℚ)
    (calls : List (CallIn ε ρ)) (stF : RLState) (evs : List (ℚ × Option ℚ))
    (hrun : runCalls M P (RateLimit.init c0) calls = some (stF, evs))
    (hval : validRun (RateLimit.debounceInterval M P) c0 c0 calls = true) :
    List.Chain' (fun a b => a + RateLimit.debounceInterval M P ≤ b)
      (c0 :: evs.map Prod.fst) :=
  runCalls_spacing M P (RateLimit.debounceInterval M P) calls (RateLimit.init c0)
    c0 stF evs hrun hval

/-- C5 witness: two consecutive calls with max_requests 2, request_period 1,
so debounce_interval = 0.35; issue times 7/20 and 7/10 are 0.35 apart. -/
theorem RateLimit.debounce_spacing_witness :
    List.Chain' (fun a b => a + RateLimit.debounceInterval 2 1 ≤ b)
      ((0 : ℚ) :: ([((7 : ℚ)/20, some ((7 : ℚ)/20)),
                    ((7 : ℚ)/10, some ((7 : ℚ)/10))].map Prod.fst)) :=
  RateLimit.debounce_spacing 2 1 0
    ([⟨0, 7/20, [], Except.ok ()⟩, ⟨7/20, 7/10, [], Except.ok ()⟩] :
      List (CallIn Unit Unit))
    { history := [7/20, 7/10], prev := 7/10 }
    [(7/20, some (7/20)), (7/10, some (7/10))]
    (by norm_num [runCalls, RateLimit.handle_request, admitLoop, RateLimit.init])
    (by norm_num [validRun, validCall, chainMono, chainLast, debounceWait,
                  RateLimit.debounceInterval])

theorem addAllStopPoints_stable (env : Env J) :
    ∀ (l : List J) (st : OrchSt),
      (addAllStopPoints env st l).1.temp = st.temp ∧
      (addAllStopPoints env st l).1.trace = st.trace ∧
      (addAllStopPoints env st l).1.processed = st.processed := by
  intro l
  induction l with
  | nil => intro st; exact ⟨rfl, rfl, rfl⟩
  | cons x rest ih =>
    intro st
    simp only [addAllStopPoints]
    cases hv : env.validateStopPoints x with
    | error e => exact ⟨rfl, rfl, rfl⟩
    | ok sps => exact ih _

theorem addAllStopPoints_result (env : Env J) :
    ∀ (l : List J) (st st' : OrchSt),
      (addAllStopPoints env st l).2 = (addAllStopPoints env st' l).2 := by
  intro l
  induction l with
  | nil => intro st st'; rfl
  | cons x rest ih =>
    intro st st'
    simp only [addAllStopPoints]
    cases hv : env.validateStopPoints x with
    | error e => rfl
    | ok sps => exact ih _ _

theorem processSection_stable (env : Env J) (st : OrchSt) (lineId direction : String) :
    (processSection env st lineId direction).1.temp = st.temp ∧
    (processSection env st lineId direction).1.processed = st.processed := by
  unfold processSection
  cases hr : env.request (seqEndpoint lineId direction) with
  | error e => exact ⟨rfl, rfl⟩
  | ok seqJson =>
    simp only
    cases hs : env.stopPointSeqs seqJson with
    | error e => exact ⟨rfl, rfl⟩
    | ok spSeqs =>
      simp only
      rcases hadd : addAllStopPoints env
          { st with trace := st.trace ++ [seqEndpoint lineId direction] } spSeqs
        with ⟨st2, r⟩
      have hst2 := addAllStopPoints_stable env spSeqs
        { st with trace := st.trace ++ [seqEndpoint lineId direction] }
      rw [hadd] at hst2
      cases r with
      | error e => exact ⟨hst2.1, hst2.2.2⟩
      | ok u =>
        cases hv : env.validateRouteSeq seqJson with
        | error e => exact ⟨hst2.1, hst2.2.2⟩
        | ok rs => exact ⟨hst2.1, hst2.2.2⟩

theorem processSection_trace (env : Env J) (st : OrchSt) (lineId direction : String) :
    (processSection env st lineId direction).1.trace
      = st.trace ++ [seqEndpoint lineId direction] := by
  unfold processSection
  cases hr : env.request (seqEndpoint lineId direction) with
  | error e => rfl
  | ok seqJson =>
    simp only
    cases hs : env.stopPointSeqs seqJson with
    | error e => rfl
    | ok spSeqs =>
      simp only
      rcases hadd : addAllStopPoints env
          { st with trace := st.trace ++ [seqEndpoint lineId direction] } spSeqs
        with ⟨st2, r⟩
      have hst2 := addAllStopPoints_stable env spSeqs
        { st with trace := st.trace ++ [seqEndpoint lineId direction] }
      rw [hadd] at hst2
      cases r with
      | error e => exact hst2.2.1
      | ok u =>
        cases hv : env.validateRouteSeq seqJson with
        | error e => exact hst2.2.1
        | ok rs => exact hst2.2.1

theorem processSection_result (env : Env J) (lineId direction : String)
    (st st' : OrchSt) :
    (processSection env st lineId direction).2
      = (processSection env st' lineId direction).2 := by
  unfold processSection
  cases hr : env.request (seqEndpoint lineId direction) with
  | error e => rfl
  | ok seqJson =>
    simp only
    cases hs : env.stopPointSeqs seqJson with
    | error e => rfl
    | ok spSeqs =>
      simp only
      rcases hadd : addAllStopPoints env
          { st with trace := st.trace ++ [seqEndpoint lineId direction] } spSeqs
        with ⟨st2, r⟩
      rcases hadd' : addAllStopPoints env
          { st' with trace := st'.trace ++ [seqEndpoint lineId direction] } spSeqs
        with ⟨st2', r'⟩
      have hr2 : r = r' := by
        have h := addAllStopPoints_result env spSeqs
          { st with trace := st.trace ++ [seqEndpoint lineId direction] }
          { st' with trace := st'.trace ++ [seqEndpoint lineId direction] }
        rw [hadd, hadd'] at h
        exact h
      cases hr2
      cases r with
      | error e => rfl
      | ok u =>
        simp only
        cases hv : env.validateRouteSeq seqJson with
        | error e => simp [hv]
        | ok rs => simp [hv]

theorem processSections_stable (env : Env J) (lineId : String) :
    ∀ (dirs : List String) (acc : List RouteSeq) (st : OrchSt),
      (processSections env lineId st dirs acc).1.temp = st.temp ∧
      (processSections env lineId st dirs acc).1.processed = st.processed := by
  intro dirs
  induction dirs with
  | nil => intro acc st; exact ⟨rfl, rfl⟩
  | cons d rest ih =>
    intro acc st
    simp only [processSections]
    rcases hps : processSection env st lineId d with ⟨st1, r⟩
    have hstable := processSection_stable env st lineId d
    rw [hps] at hstable
    cases r with
    | error e => exact hstable
    | ok rs =>
      have := ih (acc ++ [rs]) st1
      exact ⟨this.1.trans hstable.1, this.2.trans hstable.2⟩

theorem processSections_result (env : Env J) (lineId : String) :
    ∀ (dirs : List String) (acc : List RouteSeq) (st st' : OrchSt),
      (processSections env lineId st dirs acc).2
        = (processSections env lineId st' dirs acc).2 := by
  intro dirs
  induction dirs with
  | nil => intro acc st st'; rfl
  | cons d rest ih =>
    intro acc st st'
    simp only [processSections]
    rcases hps : processSection env st lineId d with ⟨st1, r⟩
    rcases hps' : processSection env st' lineId d with ⟨st1', r'⟩
    have hr2 : r = r' := by
      have h := processSection_result env lineId d st st'
      rw [hps, hps'] at h
      exact h
    cases hr2
    cases r with
    | error e => rfl
    | ok rs => exact ih (acc ++ [rs]) st1 st1'

theorem processStub_stable (env : Env J) (st : OrchSt) (stub : Stub) :
    (processStub env st stub).1.temp = st.temp ∧
    (processStub env st stub).1.processed = st.processed := by
  unfold processStub
  rcases hps : processSections env stub.id st stub.sections [] with ⟨st1, r⟩
  have hstable := processSections_stable env stub.id stub.sections [] st
  rw [hps] at hstable
  cases r with
  | error e => exact hstable
  | ok seqs =>
    simp only
    cases hv : env.validateLine stub seqs with
    | error e => simp only [hv]; exact hstable
    | ok line => simp only [hv]; exact hstable

theorem processStub_result (env : Env J) (stub : Stub) (st st' : OrchSt) :
    (processStub env st stub).2 = (processStub env st' stub).2 := by
  unfold processStub
  rcases hps : processSections env stub.id st stub.sections [] with ⟨st1, r⟩
  rcases hps' : processSections env stub.id st' stub.sections [] with ⟨st1', r'⟩
  have hr2 : r = r' := by
    have h := processSections_result env stub.id stub.sections [] st st'
    rw [hps, hps'] at h
    exact h
  cases hr2
  cases r with
  | error e => rfl
  | ok seqs =>
    simp only
    cases hv : env.validateLine stub seqs with
    | error e => simp [hv]
    | ok line => simp [hv]

theorem processStub_ok_id (env : Env J) (hic : IdConsistent env) (st : OrchSt)
    (stub : Stub) (line : Line)
    (h : (processStub env st stub).2 = Except.ok line) : line.id = stub.id := by
  unfold processStub at h
  rcases hps : processSections env stub.id st stub.sections [] with ⟨st1, r⟩
  rw [hps] at h
  cases r with
  | error e => exact absurd h (by simp)
  | ok seqs =>
    simp only at h
    cases hv : env.validateLine stub seqs with
    | error e => rw [hv] at h; exact absurd h (by simp)
    | ok line2 =>
      rw [hv] at h
      simp only [Except.ok.injEq] at h
      rw [← h]
      exact hic stub seqs line2 hv


theorem runStubs_cons_skip (env : Env J) (st : OrchSt) (stub : Stub)
    (rest : List Stub) (hk : keyMem stub.id st.temp = true) :
    runStubs env st (stub :: rest) = runStubs env st rest := by
  simp [runStubs, hk]

theorem runStubs_cons_err (env : Env J) (st : OrchSt) (stub : Stub)
    (rest : List Stub) (st1 : OrchSt) (e : String)
    (hk : keyMem stub.id st.temp = false)
    (hps : processStub env { st with processed := st.processed ++ [stub.id] } stub
      = (st1, Except.error e)) :
    runStubs env st (stub :: rest) = (st1, Except.error e) := by
  simp [runStubs, hk, hps]

theorem runStubs_cons_ok (env : Env J) (st : OrchSt) (stub : Stub)
    (rest : List Stub) (st1 : OrchSt) (line : Line)
    (hk : keyMem stub.id st.temp = false)
    (hps : processStub env { st with processed := st.processed ++ [stub.id] } stub
      = (st1, Except.ok line)) :
    runStubs env st (stub :: rest)
      = runStubs env { st1 with temp := st1.temp ++ [(line.id, line)] } rest := by
  simp [runStubs, hk, hps]

theorem processStub_stable2 (env : Env J) (st : OrchSt) (stub : Stub)
    (st1 : OrchSt) (r : Except String Line)
    (hps : processStub env { st with processed := st.processed ++ [stub.id] } stub
      = (st1, r)) :
    st1.temp = st.temp ∧ st1.processed = st.processed ++ [stub.id] := by
  have h := processStub_stable env
    { st with processed := st.processed ++ [stub.id] } stub
  rw [hps] at h
  exact h

theorem runStubs_temp_congr (env : Env J) :
    ∀ (l : List Stub) (st st' : OrchSt), st.temp = st'.temp →
      (runStubs env st l).1.temp = (runStubs env st' l).1.temp ∧
      (runStubs env st l).2 = (runStubs env st' l).2 := by
  intro l
  induction l with
  | nil => intro st st' h; exact ⟨h, rfl⟩
  | cons stub rest ih =>
    intro st st' h
    by_cases hk : keyMem stub.id st.temp = true
    · rw [runStubs_cons_skip env st stub rest hk,
          runStubs_cons_skip env st' stub rest (h ▸ hk)]
      exact ih st st' h
    · have hkf : keyMem stub.id st.temp = false := by simpa using hk
      have hkf' : keyMem stub.id st'.temp = false := h ▸ hkf
      rcases hps : processStub env
          { st with processed := st.processed ++ [stub.id] } stub with ⟨st1, r⟩
      rcases hps' : processStub env
          { st' with processed := st'.processed ++ [stub.id] } stub with ⟨st1', r'⟩
      have hr2 : r = r' := by
        have hh := processStub_result env stub
          { st with processed := st.processed ++ [stub.id] }
          { st' with processed := st'.processed ++ [stub.id] }
        rw [hps, hps'] at hh
        exact hh
      cases hr2
      have h1 := processStub_stable2 env st stub st1 r hps
      have h1' := processStub_stable2 env st' stub st1' r hps'
      cases r with
      | error e =>
        rw [runStubs_cons_err env st stub rest st1 e hkf hps,
            runStubs_cons_err env st' stub rest st1' e hkf' hps']
        exact ⟨h1.1.trans (h.trans h1'.1.symm), rfl⟩
      | ok line =>
        rw [runStubs_cons_ok env st stub rest st1 line hkf hps,
            runStubs_cons_ok env st' stub rest st1' line hkf' hps']
        apply ih
        simp only [h1.1, h1'.1, h]

theorem runStubs_keyMem_mono (env : Env J) (k : String) :
    ∀ (l : List Stub) (st : OrchSt), keyMem k st.temp = true →
      keyMem k (runStubs env st l).1.temp = true := by
  intro l
  induction l with
  | nil => intro st h; exact h
  | cons stub rest ih =>
    intro st h
    by_cases hk : keyMem stub.id st.temp = true
    · rw [runStubs_cons_skip env st stub rest hk]
      exact ih st h
    · have hkf : keyMem stub.id st.temp = false := by simpa using hk
      rcases hps : processStub env
          { st with processed := st.processed ++ [stub.id] } stub with ⟨st1, r⟩
      have h1 := processStub_stable2 env st stub st1 r hps
      cases r with
      | error e =>
        rw [runStubs_cons_err env st stub rest st1 e hkf hps]
        simpa [h1.1] using h
      | ok line =>
        rw [runStubs_cons_ok env st stub rest st1 line hkf hps]
        apply ih
        simp [keyMem_append, h1.1, h]

theorem runStubs_ok_mem (env : Env J) (hic : IdConsistent env) :
    ∀ (l : List Stub) (st : OrchSt),
      (runStubs env st l).2 = Except.ok () →
      ∀ s ∈ l, keyMem s.id (runStubs env st l).1.temp = true := by
  intro l
  induction l with
  | nil => intro st hok s hs; exact absurd hs (by simp)
  | cons stub rest ih =>
    intro st hok s hs
    by_cases hk : keyMem stub.id st.temp = true
    · rw [runStubs_cons_skip env st stub rest hk] at hok ⊢
      rcases List.mem_cons.mp hs with rfl | hs'
      · exact runStubs_keyMem_mono env s.id rest st hk
      · exact ih st hok s hs'
    · have hkf : keyMem stub.id st.temp = false := by simpa using hk
      rcases hps : processStub env
          { st with processed := st.processed ++ [stub.id] } stub with ⟨st1, r⟩
      cases r with
      | error e =>
        rw [runStubs_cons_err env st stub rest st1 e hkf hps] at hok
        exact absurd hok (by simp)
      | ok line =>
        rw [runStubs_cons_ok env st stub rest st1 line hkf hps] at hok ⊢
        have hid : line.id = stub.id :=
          processStub_ok_id env hic _ stub line (by rw [hps])
        rcases List.mem_cons.mp hs with rfl | hs'
        · apply runStubs_keyMem_mono
          simp [keyMem_append, keyMem, hid]
        · exact ih _ hok s hs'

theorem runStubs_skip_all (env : Env J) :
    ∀ (l : List Stub) (st : OrchSt),
      (∀ s ∈ l, keyMem s.id st.temp = true) →
      runStubs env st l = (st, Except.ok ()) := by
  intro l
  induction l with
  | nil => intro st h; rfl
  | cons stub rest ih =>
    intro st h
    rw [runStubs_cons_skip env st stub rest (h stub (by simp))]
    exact ih st (fun s hs => h s (List.mem_cons_of_mem _ hs))

theorem runStubs_append (env : Env J) :
    ∀ (l1 l2 : List Stub) (st : OrchSt),
      (runStubs env st l1).2 = Except.ok () →
      runStubs env st (l1 ++ l2) = runStubs env (runStubs env st l1).1 l2 := by
  intro l1
  induction l1 with
  | nil => intro l2 st hok; rfl
  | cons stub rest ih =>
    intro l2 st hok
    by_cases hk : keyMem stub.id st.temp = true
    · rw [runStubs_cons_skip env st stub rest hk] at hok ⊢
      rw [List.cons_append, runStubs_cons_skip env st stub (rest ++ l2) hk]
      exact ih l2 st hok
    · have hkf : keyMem stub.id st.temp = false := by simpa using hk
      rcases hps : processStub env
          { st with processed := st.processed ++ [stub.id] } stub with ⟨st1, r⟩
      cases r with
      | error e =>
        rw [runStubs_cons_err env st stub rest st1 e hkf hps] at hok
        exact absurd hok (by simp)
      | ok line =>
        rw [runStubs_cons_ok env st stub rest st1 line hkf hps] at hok ⊢
        rw [List.cons_append,
            runStubs_cons_ok env st stub (rest ++ l2) st1 line hkf hps]
        exact ih l2 _ hok

theorem runStubs_processed (env : Env J) (hic : IdConsistent env) :
    ∀ (l : List Stub) (st : OrchSt),
      (runStubs env st l).2 = Except.ok () →
      (l.map Stub.id).Nodup →
      (runStubs env st l).1.processed
        = st.processed ++ (l.filter (fun s => !(keyMem s.id st.temp))).map Stub.id := by
  intro l
  induction l with
  | nil => intro st hok hnd; simp [runStubs]
  | cons stub rest ih =>
    intro st hok hnd
    rw [List.map_cons, List.nodup_cons] at hnd
    obtain ⟨hnd1, hnd2⟩ := hnd
    by_cases hk : keyMem stub.id st.temp = true
    · rw [runStubs_cons_skip env st stub rest hk] at hok ⊢
      rw [ih st hok hnd2]
      simp [List.filter_cons, hk]
    · have hkf : keyMem stub.id st.temp = false := by simpa using hk
      rcases hps : processStub env
          { st with processed := st.processed ++ [stub.id] } stub with ⟨st1, r⟩
      cases r with
      | error e =>
        rw [runStubs_cons_err env st stub rest st1 e hkf hps] at hok
        exact absurd hok (by simp)
      | ok line =>
        rw [runStubs_cons_ok env st stub rest st1 line hkf hps] at hok ⊢
        have h1 := processStub_stable2 env st stub st1 _ hps
        have hid : line.id = stub.id :=
          processStub_ok_id env hic _ stub line (by rw [hps])
        rw [ih _ hok hnd2]
        have hfc : rest.filter
              (fun s => !(keyMem s.id
                (({ st1 with temp := st1.temp ++ [(line.id, line)] } : OrchSt).temp)))
            = rest.filter (fun s => !(keyMem s.id st.temp)) := by
          apply List.filter_congr
          intro s' hs'
          have hne : ¬ (stub.id = s'.id) := by
            intro heq
            exact hnd1 (heq ▸ List.mem_map_of_mem Stub.id hs')
          simp [keyMem_append, h1.1, keyMem, hid, hne]
        rw [hfc]
        have hpr : ({ st1 with temp := st1.temp ++ [(line.id, line)] } : OrchSt).processed
            = st.processed ++ [stub.id] := h1.2
        rw [hpr]
        simp [List.filter_cons, hkf]

theorem processSections_trace (env : Env J) (lineId : String) :
    ∀ (dirs : List String) (acc : List RouteSeq) (st : OrchSt),
      ∃ tl, (processSections env lineId st dirs acc).1.trace = st.trace ++ tl := by
  intro dirs
  induction dirs with
  | nil => intro acc st; exact ⟨[], by simp [processSections]⟩
  | cons d rest ih =>
    intro acc st
    simp only [processSections]
    rcases hps : processSection env st lineId d with ⟨st1, r⟩
    have htr : st1.trace = st.trace ++ [seqEndpoint lineId d] := by
      have := processSection_trace env st lineId d
      rw [hps] at this
      exact this
    cases r with
    | error e => exact ⟨[seqEndpoint lineId d], htr⟩
    | ok rs =>
      obtain ⟨tl, htl⟩ := ih (acc ++ [rs]) st1
      exact ⟨[seqEndpoint lineId d] ++ tl, by rw [htl, htr, List.append_assoc]⟩

theorem processStub_trace (env : Env J) (st : OrchSt) (stub : Stub) :
    ∃ tl, (processStub env st stub).1.trace = st.trace ++ tl := by
  unfold processStub
  rcases hps : processSections env stub.id st stub.sections [] with ⟨st1, r⟩
  have h := processSections_trace env stub.id stub.sections [] st
  rw [hps] at h
  obtain ⟨tl, htl⟩ := h
  cases r with
  | error e => exact ⟨tl, htl⟩
  | ok seqs =>
    simp only
    cases hv : env.validateLine stub seqs with
    | error e => exact ⟨tl, by simp only [hv]; exact htl⟩
    | ok line => exact ⟨tl, by simp only [hv]; exact htl⟩

theorem runStubs_trace (env : Env J) :
    ∀ (l : List Stub) (st : OrchSt),
      ∃ tl, (runStubs env st l).1.trace = st.trace ++ tl := by
  intro l
  induction l with
  | nil => intro st; exact ⟨[], by simp [runStubs]⟩
  | cons stub rest ih =>
    intro st
    by_cases hk : keyMem stub.id st.temp = true
    · rw [runStubs_cons_skip env st stub rest hk]
      exact ih st
    · have hkf : keyMem stub.id st.temp = false := by simpa using hk
      rcases hps : processStub env
          { st with processed := st.processed ++ [stub.id] } stub with ⟨st1, r⟩
      have htr := processStub_trace env
        { st with processed := st.processed ++ [stub.id] } stub
      rw [hps] at htr
      obtain ⟨tl, htl⟩ := htr
      cases r with
      | error e =>
        rw [runStubs_cons_err env st stub rest st1 e hkf hps]
        exact ⟨tl, htl⟩
      | ok line =>
        rw [runStubs_cons_ok env st stub rest st1 line hkf hps]
        obtain ⟨tl2, htl2⟩ := ih { st1 with temp := st1.temp ++ [(line.id, line)] }
        refine ⟨tl ++ tl2, ?_⟩
        rw [htl2]
        simp only
        rw [htl, List.append_assoc]

theorem length_filter_not_add (p : Stub → Bool) (l : List Stub) :
    (l.filter p).length + (l.filter (fun s => !(p s))).length = l.length := by
  induction l with
  | nil => rfl
  | cons a l ih =>
    by_cases h : p a = true <;>
      simp only [List.filter_cons, h, Bool.not_true, Bool.not_false,
        Bool.false_eq_true, if_false, if_true, List.length_cons] <;>
      omega

/-- C2: resumability of LineStore.fetch.  Given a checkpoint file holding the
progress of an error-free pass over the first jp stubs, a re-run of fetch
loads the checkpoint, skips the K stubs already present, processes exactly
the remaining N − K stubs, completes without error and returns a catalogue
equal to the one an uninterrupted run (no checkpoint) produces. -/
theorem LineStore.fetch_resumes_from_checkpoint (env : Env J) (mode : String)
    (c1 c2 : Option Catalogue) (sp0 sp1 sp2 : SPData) (tr pr : List String)
    (stubs : List Stub) (j : J) (jp : Nat) (cp : Catalogue)
    (hreq : env.request (collectionEndpoint mode) = Except.ok j)
    (hparse : env.parseStubs j = Except.ok stubs)
    (hic : IdConsistent env)
    (hnd : (stubs.map Stub.id).Nodup)
    (hcpOk : (runStubs env { temp := [], sp := sp2, trace := tr, processed := pr }
        (stubs.take jp)).2 = Except.ok ())
    (hcp : (runStubs env { temp := [], sp := sp2, trace := tr, processed := pr }
        (stubs.take jp)).1.temp = cp)
    (hok : (LineStore.fetch env mode { canonical := c2, temp := none } sp1).errorMsg
        = none) :
    (LineStore.fetch env mode { canonical := c1, temp := some cp } sp0).result
      = (LineStore.fetch env mode { canonical := c2, temp := none } sp1).result ∧
    (LineStore.fetch env mode { canonical := c1, temp := some cp } sp0).errorMsg
      = none ∧
    (LineStore.fetch env mode { canonical := c1, temp := some cp } sp0).st.processed
      = (stubs.filter (fun s => !(keyMem s.id cp))).map Stub.id ∧
    (LineStore.fetch env mode { canonical := c1, temp := some cp } sp0).st.processed.length
      = stubs.length - (stubs.filter (fun s => keyMem s.id cp)).length := by
  have hsplit := List.take_append_drop jp stubs
  -- The uninterrupted run's state and the resumed run's state.
  have hcongrCB := runStubs_temp_congr env (stubs.take jp)
    { temp := [], sp := sp2, trace := tr, processed := pr }
    { temp := [], sp := sp1, trace := [collectionEndpoint mode], processed := [] }
    rfl
  have hBpre2 : (runStubs env
      { temp := [], sp := sp1, trace := [collectionEndpoint mode], processed := [] }
      (stubs.take jp)).2 = Except.ok () := hcongrCB.2.symm.trans hcpOk
  have hBpreT : (runStubs env
      { temp := [], sp := sp1, trace := [collectionEndpoint mode], processed := [] }
      (stubs.take jp)).1.temp = cp := hcongrCB.1.symm.trans hcp
  -- Every stub of the processed prefix is present in the checkpoint.
  have hmem : ∀ s ∈ stubs.take jp, keyMem s.id cp = true := by
    intro s hs
    have := runStubs_ok_mem env hic (stubs.take jp)
      { temp := [], sp := sp2, trace := tr, processed := pr } hcpOk s hs
    rwa [hcp] at this
  -- The resumed run skips the whole prefix.
  have h4 : runStubs env
      { temp := cp, sp := sp0, trace := [collectionEndpoint mode], processed := [] }
      (stubs.take jp)
      = ({ temp := cp, sp := sp0, trace := [collectionEndpoint mode], processed := [] },
         Except.ok ()) :=
    runStubs_skip_all env (stubs.take jp) _ hmem
  have h7 : runStubs env
      { temp := cp, sp := sp0, trace := [collectionEndpoint mode], processed := [] }
      stubs
      = runStubs env
        { temp := cp, sp := sp0, trace := [collectionEndpoint mode], processed := [] }
        (stubs.drop jp) := by
    have happ := runStubs_append env (stubs.take jp) (stubs.drop jp)
      { temp := cp, sp := sp0, trace := [collectionEndpoint mode], processed := [] }
      (by rw [h4])
    rw [hsplit] at happ
    rw [happ, h4]
  have h6 : runStubs env
      { temp := [], sp := sp1, trace := [collectionEndpoint mode], processed := [] }
      stubs
      = runStubs env
        (runStubs env
          { temp := [], sp := sp1, trace := [collectionEndpoint mode], processed := [] }
          (stubs.take jp)).1
        (stubs.drop jp) := by
    have happ := runStubs_append env (stubs.take jp) (stubs.drop jp)
      { temp := [], sp := sp1, trace := [collectionEndpoint mode], processed := [] }
      hBpre2
    rw [hsplit] at happ
    exact happ
  have h8 := runStubs_temp_congr env (stubs.drop jp)
    { temp := cp, sp := sp0, trace := [collectionEndpoint mode], processed := [] }
    (runStubs env
      { temp := [], sp := sp1, trace := [collectionEndpoint mode], processed := [] }
      (stubs.take jp)).1
    (by rw [hBpreT])
  have hABeq1 : (runStubs env
      { temp := cp, sp := sp0, trace := [collectionEndpoint mode], processed := [] }
      stubs).1.temp
      = (runStubs env
        { temp := [], sp := sp1, trace := [collectionEndpoint mode], processed := [] }
        stubs).1.temp := by
    rw [h7, h6]
    exact h8.1
  have hABeq2 : (runStubs env
      { temp := cp, sp := sp0, trace := [collectionEndpoint mode], processed := [] }
      stubs).2
      = (runStubs env
        { temp := [], sp := sp1, trace := [collectionEndpoint mode], processed := [] }
        stubs).2 := by
    rw [h7, h6]
    exact h8.2
  -- The uninterrupted run completes (from hok), hence so does the resumed one.
  rcases hrsB : runStubs env
      { temp := [], sp := sp1, trace := [collectionEndpoint mode], processed := [] }
      stubs with ⟨stB, rB⟩
  simp only [LineStore.fetch, hreq, hparse, Option.getD_none, Option.getD_some,
    hrsB] at hok
  cases rB with
  | error e => simp at hok
  | ok u =>
    have hBok : (runStubs env
        { temp := [], sp := sp1, trace := [collectionEndpoint mode], processed := [] }
        stubs).2 = Except.ok () := by rw [hrsB]
    have hAok : (runStubs env
        { temp := cp, sp := sp0, trace := [collectionEndpoint mode], processed := [] }
        stubs).2 = Except.ok () := hABeq2.trans hBok
    have h9 := runStubs_processed env hic stubs
      { temp := cp, sp := sp0, trace := [collectionEndpoint mode], processed := [] }
      hAok hnd
    rcases hrsA : runStubs env
        { temp := cp, sp := sp0, trace := [collectionEndpoint mode], processed := [] }
        stubs with ⟨stA, rA⟩
    rw [hrsA] at hAok
    cases rA with
    | error e => exact absurd hAok (by simp)
    | ok u2 =>
      have hfA : LineStore.fetch env mode { canonical := c1, temp := some cp } sp0
          = { result := stA.temp, fs := { canonical := c1, temp := none }, st := stA,
              errorMsg := none } := by
        simp [LineStore.fetch, hreq, hparse, hrsA]
      have hfB : LineStore.fetch env mode { canonical := c2, temp := none } sp1
          = { result := stB.temp, fs := { canonical := c2, temp := none }, st := stB,
              errorMsg := none } := by
        simp [LineStore.fetch, hreq, hparse, hrsB]
      rw [hrsA, hrsB] at hABeq1
      rw [hrsA] at h9
      refine ⟨by rw [hfA, hfB]; exact hABeq1, by rw [hfA], ?_, ?_⟩
      · rw [hfA]
        simpa using h9
      · rw [hfA]
        have hlen := length_filter_not_add (fun s => keyMem s.id cp) stubs
        have h9' : stA.processed = (stubs.filter (fun s => !(keyMem s.id cp))).map Stub.id := by
          simpa using h9
        rw [h9']
        simp only [List.length_map]
        omega

/-- C2 witness: four stubs, checkpoint holding the first two; the resumed
run processes exactly "c" and "d" (4 − 2 stubs) and agrees with the
uninterrupted run. -/
theorem LineStore.fetch_resumes_from_checkpoint_witness :
    (LineStore.fetch envFour ("bus")
        { canonical := none,
          temp := some [("a", { id := "a", payload := "" }),
                        ("b", { id := "b", payload := "" })] } []).result
      = (LineStore.fetch envFour ("bus") { canonical := none, temp := none } []).result ∧
    (LineStore.fetch envFour ("bus")
        { canonical := none,
          temp := some [("a", { id := "a", payload := "" }),
                        ("b", { id := "b", payload := "" })] } []).errorMsg = none ∧
    (LineStore.fetch envFour ("bus")
        { canonical := none,
          temp := some [("a", { id := "a", payload := "" }),
                        ("b", { id := "b", payload := "" })] } []).st.processed
      = (([⟨"a", []⟩, ⟨"b", []⟩, ⟨"c", []⟩, ⟨"d", []⟩] : List Stub).filter
          (fun s => !(keyMem s.id ([("a", { id := "a", payload := "" }),
                                    ("b", { id := "b", payload := "" })] : Catalogue)))).map Stub.id ∧
    (LineStore.fetch envFour ("bus")
        { canonical := none,
          temp := some [("a", { id := "a", payload := "" }),
                        ("b", { id := "b", payload := "" })] } []).st.processed.length
      = ([⟨"a", []⟩, ⟨"b", []⟩, ⟨"c", []⟩, ⟨"d", []⟩] : List Stub).length
        - (([⟨"a", []⟩, ⟨"b", []⟩, ⟨"c", []⟩, ⟨"d", []⟩] : List Stub).filter
            (fun s => keyMem s.id ([("a", { id := "a", payload := "" }),
                                    ("b", { id := "b", payload := "" })] : Catalogue))).length :=
  LineStore.fetch_resumes_from_checkpoint envFour ("bus") none none [] [] [] [] []
    [⟨"a", []⟩, ⟨"b", []⟩, ⟨"c", []⟩, ⟨"d", []⟩] "col" 2
    [("a", { id := "a", payload := "" }), ("b", { id := "b", payload := "" })]
    (by decide) (by decide)
    (by
      intro stub seqs line h
      have h2 : Except.ok ({ id := stub.id, payload := "" } : Line) = Except.ok line := h
      injection h2 with h3
      rw [← h3])
    (by decide) (by decide) (by decide) (by decide)

/-- C9 amended: in the tflump orchestrator the first request of a fetch run
is the collection endpoint for the given mode, and — when the run completes
without error — every stub of the returned sequence not already present in
the accumulating catalogue is processed; the lump variant however hard-codes
the bus collection endpoint (`self.endpoint` ignores the mode argument). -/
theorem LineStore.fetch_collection_endpoint (env : Env J) (mode : String)
    (fs : FS) (sp0 : SPData) (stubs : List Stub) (j : J)
    (hreq : env.request (collectionEndpoint mode) = Except.ok j)
    (hparse : env.parseStubs j = Except.ok stubs)
    (hic : IdConsistent env)
    (hnd : (stubs.map Stub.id).Nodup)
    (hok : (LineStore.fetch env mode fs sp0).errorMsg = none) :
    (LineStore.fetch env mode fs sp0).st.trace.head?
      = some (collectionEndpoint mode) ∧
    (LineStore.fetch env mode fs sp0).st.processed
      = (stubs.filter (fun s => !(keyMem s.id (fs.temp.getD [])))).map Stub.id ∧
    lump_LineStore_endpoint mode = collectionEndpoint ("bus") := by
  rcases hrs : runStubs env
      { temp := fs.temp.getD [], sp := sp0, trace := [collectionEndpoint mode],
        processed := [] } stubs with ⟨st1, r⟩
  simp only [LineStore.fetch, hreq, hparse, hrs] at hok
  cases r with
  | error e => simp at hok
  | ok u =>
    have hfetch : LineStore.fetch env mode fs sp0
        = { result := st1.temp, fs := { fs with temp := none }, st := st1,
            errorMsg := none } := by
      simp [LineStore.fetch, hreq, hparse, hrs]
    have hrok : (runStubs env
        { temp := fs.temp.getD [], sp := sp0, trace := [collectionEndpoint mode],
          processed := [] } stubs).2 = Except.ok () := by rw [hrs]
    have htr := runStubs_trace env stubs
      { temp := fs.temp.getD [], sp := sp0, trace := [collectionEndpoint mode],
        processed := [] }
    rw [hrs] at htr
    obtain ⟨tl, htl⟩ := htr
    have hproc := runStubs_processed env hic stubs
      { temp := fs.temp.getD [], sp := sp0, trace := [collectionEndpoint mode],
        processed := [] } hrok hnd
    rw [hrs] at hproc
    refine ⟨?_, ?_, rfl⟩
    · rw [hfetch]
      simp only at htl
      rw [htl]
      simp
    · rw [hfetch]
      simpa using hproc

/-- C9 counterexample: the lump variant asked for mode "tube" issues its
first request to the hard-coded bus collection endpoint, and with four
absent stubs returned it processes only the first three — stub "d" is never
processed and never enters the catalogue. -/
theorem lump_LineStore_wrong_endpoint_and_truncation :
    lump_LineStore_endpoint ("tube") ≠ collectionEndpoint ("tube") ∧
    lump_LineStore_load envFour ("tube") { canonical := none, temp := none } []
      = Sum.inl
          { result := [("a", { id := "a", payload := "" }),
                       ("b", { id := "b", payload := "" }),
                       ("c", { id := "c", payload := "" })],
            fs := { canonical := some [("a", { id := "a", payload := "" }),
                                       ("b", { id := "b", payload := "" }),
                                       ("c", { id := "c", payload := "" })],
                    temp := none },
            st := { temp := [("a", { id := "a", payload := "" }),
                             ("b", { id := "b", payload := "" }),
                             ("c", { id := "c", payload := "" })],
                    sp := [],
                    trace := [lump_LineStore_endpoint ("tube")],
                    processed := ["a", "b", "c"] },
            fetched := true } := by
  decide

/-- C9 witness: concrete error-free run of the tflump orchestrator over four
stubs for mode bus, starting from an empty checkpoint. -/
theorem LineStore.fetch_collection_endpoint_witness :
    (LineStore.fetch envFour ("bus") { canonical := none, temp := none } []).st.trace.head?
      = some (collectionEndpoint ("bus")) ∧
    (LineStore.fetch envFour ("bus") { canonical := none, temp := none } []).st.processed
      = (([⟨"a", []⟩, ⟨"b", []⟩, ⟨"c", []⟩, ⟨"d", []⟩] : List Stub).filter
          (fun s => !(keyMem s.id
            ((({ canonical := none, temp := none } : FS)).temp.getD [])))).map Stub.id ∧
    lump_LineStore_endpoint ("bus") = collectionEndpoint ("bus") :=
  LineStore.fetch_collection_endpoint envFour ("bus")
    { canonical := none, temp := none } []
    [⟨"a", []⟩, ⟨"b", []⟩, ⟨"c", []⟩, ⟨"d", []⟩] "col"
    (by decide) (by decide)
    (by
      intro stub seqs line h
      have h2 : Except.ok ({ id := stub.id, payload := "" } : Line) = Except.ok line := h
      injection h2 with h3
      rw [← h3])
    (by decide) (by decide)

theorem chainMono_cons (a b : ℚ) (l : List ℚ)
    (h : chainMono (a :: b :: l) = true) : a ≤ b ∧ chainMono (b :: l) = true := by
  simpa [chainMono, Bool.and_eq_true, decide_eq_true_eq] using h

theorem chainLast_ge : ∀ (l : List ℚ) (x : ℚ),
    chainMono (x :: l) = true → x ≤ chainLast x l := by
  intro l
  induction l with
  | nil => intro x h; exact le_refl x
  | cons y ys ih =>
    intro x h
    obtain ⟨hxy, h2⟩ := chainMono_cons x y ys h
    exact le_trans hxy (ih y h2)

theorem admitLoop_spec (M : Nat) (P : ℚ) :
    ∀ (clock : List ℚ) (v : ℚ) (hist h : List ℚ) (tEnd : ℚ),
      chainMono (v :: clock) = true →
      admitLoop M P v hist clock = some (h, tEnd) →
      ∃ k, k ≤ hist.length ∧ h = hist.drop k ∧ h.length < M ∧
        (∀ e ∈ hist.take k, e + P < tEnd) ∧ v ≤ tEnd ∧ tEnd ≤ chainLast v clock := by
  intro clock
  induction clock with
  | nil =>
    intro v hist h tEnd hmono hadm
    unfold admitLoop at hadm
    by_cases h1 : hist.length < M
    · simp only [if_pos h1, Option.some.injEq, Prod.mk.injEq] at hadm
      obtain ⟨hh, ht⟩ := hadm
      subst hh
      subst ht
      exact ⟨0, Nat.zero_le _, by simp, h1, by simp, le_refl v, le_refl v⟩
    · simp only [if_neg h1] at hadm
      by_cases h2 : (evict P v hist).length < M
      · simp only [if_pos h2, Option.some.injEq, Prod.mk.injEq] at hadm
        obtain ⟨hh, ht⟩ := hadm
        subst hh
        subst ht
        obtain ⟨k, hkle, he, hb⟩ := evict_eq_drop P v hist
        exact ⟨k, hkle, he, he ▸ h2, hb, le_refl v, le_refl v⟩
      · simp only [if_neg h2] at hadm
        exact absurd hadm (by simp)
  | cons t rest ih =>
    intro v hist h tEnd hmono hadm
    obtain ⟨hvt, hmono2⟩ := chainMono_cons v t rest hmono
    unfold admitLoop at hadm
    by_cases h1 : hist.length < M
    · simp only [if_pos h1, Option.some.injEq, Prod.mk.injEq] at hadm
      obtain ⟨hh, ht⟩ := hadm
      subst hh
      subst ht
      exact ⟨0, Nat.zero_le _, by simp, h1, by simp, le_refl v,
        chainLast_ge (t :: rest) v hmono⟩
    · simp only [if_neg h1] at hadm
      by_cases h2 : (evict P v hist).length < M
      · simp only [if_pos h2, Option.some.injEq, Prod.mk.injEq] at hadm
        obtain ⟨hh, ht⟩ := hadm
        subst hh
        subst ht
        obtain ⟨k, hkle, he, hb⟩ := evict_eq_drop P v hist
        exact ⟨k, hkle, he, he ▸ h2, hb, le_refl v,
          chainLast_ge (t :: rest) v hmono⟩
      · simp only [if_neg h2] at hadm
        obtain ⟨k2, hk2le, hdrop2, hlen2, hb2, htle, hlast⟩ :=
          ih t (evict P v hist) h tEnd hmono2 hadm
        obtain ⟨k, hkle, he, hb⟩ := evict_eq_drop P v hist
        have hlendrop : (evict P v hist).length = hist.length - k := by
          rw [he, List.length_drop]
        refine ⟨k + k2, by omega, ?_, hlen2, ?_, le_trans hvt htle, hlast⟩
        · rw [hdrop2, he, List.drop_drop]
        · intro e he'
          rw [List.take_add] at he'
          rcases List.mem_append.mp he' with hmem | hmem
          · have := hb e hmem
            linarith [le_trans hvt htle]
          · rw [← he] at hmem
            exact hb2 e hmem

theorem WindowOK_append (M : Nat) (P : ℚ) (hM : 0 < M) (A : List ℚ) (x : ℚ)
    (hok : WindowOK M P A)
    (hx : ∀ (i : Nat) (hi : i < A.length), i + M ≤ A.length →
      A.get ⟨i, hi⟩ + P < x) :
    WindowOK M P (A ++ [x]) := by
  intro i j hi hj hij
  have hj' : j < A.length + 1 := by simpa using hj
  by_cases hjA : j < A.length
  · have hiA : i < A.length := by omega
    have hgi : (A ++ [x]).get ⟨i, hi⟩ = A.get ⟨i, hiA⟩ := by
      simp [List.getElem_append_left, hiA]
    have hgj : (A ++ [x]).get ⟨j, hj⟩ = A.get ⟨j, hjA⟩ := by
      simp [List.getElem_append_left, hjA]
    rw [hgi, hgj]
    exact hok i j hiA hjA hij
  · have hjeq : j = A.length := by omega
    have hiA : i < A.length := by omega
    have hgi : (A ++ [x]).get ⟨i, hi⟩ = A.get ⟨i, hiA⟩ := by
      simp [List.getElem_append_left, hiA]
    have hgj : (A ++ [x]).get ⟨j, hj⟩ = x := by
      subst hjeq
      simp
    rw [hgi, hgj]
    exact hx i hiA (by omega)

theorem runCalls_window_inv (M : Nat) (P deb : ℚ) (hM : 0 < M) :
    ∀ (calls : List (CallIn ε ρ)) (st : RLState) (lastT : ℚ) (stF : RLState)
      (evs : List (ℚ × Option ℚ)) (A : List ℚ) (m : Nat),
      runCalls M P st calls = some (stF, evs) →
      validRun deb st.prev lastT calls = true →
      st.history = A.drop m →
      m ≤ A.length →
      (∀ (i : Nat) (hi : i < A.length), i < m → A.get ⟨i, hi⟩ + P < lastT) →
      WindowOK M P A →
      WindowOK M P (A ++ Counted evs) := by
  intro calls
  induction calls with
  | nil =>
    intro st lastT stF evs A m hrun hval hhist hm hev hok
    unfold runCalls at hrun
    simp only [Option.some.injEq, Prod.mk.injEq] at hrun
    rw [← hrun.2]
    simpa [Counted] using hok
  | cons c cs ih =>
    intro st lastT stF evs A m hrun hval hhist hm hev hok
    unfold runCalls at hrun
    cases hh : RateLimit.handle_request M P st c with
    | none => simp only [hh] at hrun; exact absurd hrun (by simp)
    | some out =>
      rcases out with ⟨st1, res, tEnd⟩
      simp only [hh] at hrun
      cases hr : runCalls M P st1 cs with
      | none => simp only [hr] at hrun; exact absurd hrun (by simp)
      | some pr =>
        rcases pr with ⟨stF2, evs2⟩
        simp only [hr, Option.some.injEq, Prod.mk.injEq] at hrun
        obtain ⟨-, hevs⟩ := hrun
        have hv : validCall deb st.prev lastT c = true ∧
            validRun deb c.r1 (chainLast c.r1 c.clock) cs = true := by
          simpa [validRun, Bool.and_eq_true] using hval
        obtain ⟨hlt, hdeb, hcm⟩ : lastT ≤ c.r0 ∧
            c.r0 + debounceWait deb st.prev c.r0 ≤ c.r1 ∧
            chainMono (c.r1 :: c.clock) = true := by
          have := hv.1
          simp only [validCall, Bool.and_eq_true, decide_eq_true_eq] at this
          exact ⟨this.1.1, this.1.2, this.2⟩
        have hr01 : c.r0 ≤ c.r1 := by
          have := debounceWait_nonneg deb st.prev c.r0
          linarith
        have hr1cl : c.r1 ≤ chainLast c.r1 c.clock := chainLast_ge c.clock c.r1 hcm
        -- destructure handle_request
        unfold RateLimit.handle_request at hh
        cases hadm : admitLoop M P c.r1 st.history c.clock with
        | none => rw [hadm] at hh; exact absurd hh (by simp)
        | some pr2 =>
          rcases pr2 with ⟨hl, tE⟩
          simp only [hadm] at hh
          obtain ⟨k, hkle, hdropk, hlen, hbnd, hr1le, htEcl⟩ :=
            admitLoop_spec M P c.clock c.r1 st.history hl tE hcm hadm
          rw [hhist] at hdropk hkle
          rw [List.length_drop] at hkle
          have hmk : m + k ≤ A.length := by omega
          have hdropk2 : hl = A.drop (m + k) := by
            rw [hdropk, List.drop_drop, Nat.add_comm]
          -- elements of the evicted block
          have hbnd2 : ∀ (i : Nat) (hi : i < A.length), m ≤ i → i < m + k →
              A.get ⟨i, hi⟩ + P < tE := by
            intro i hi him hik
            have hidx : i - m < (A.drop m).length := by
              rw [List.length_drop]; omega
            have hidx2 : i - m < ((A.drop m).take k).length := by
              rw [List.length_take, List.length_drop]; omega
            have hgeq : ((A.drop m).take k).get ⟨i - m, hidx2⟩ = A.get ⟨i, hi⟩ := by
              have h1 : ((A.drop m).take k).get ⟨i - m, hidx2⟩
                  = (A.drop m).get ⟨i - m, hidx⟩ := by
                simp [List.getElem_take]
              have h2 : (A.drop m).get ⟨i - m, hidx⟩ = A.get ⟨i, hi⟩ := by
                have : m + (i - m) = i := by omega
                simp [List.getElem_drop, this]
              rw [h1, h2]
            have hmem : A.get ⟨i, hi⟩ ∈ (A.drop m).take k := by
              rw [← hgeq]
              exact List.get_mem _ _ _
            rw [← hhist] at hmem
            exact hbnd _ hmem
          have hlast_ge_lastT : lastT ≤ chainLast c.r1 c.clock := by
            linarith
          have hev' : ∀ (i : Nat) (hi : i < A.length), i < m + k →
              A.get ⟨i, hi⟩ + P < chainLast c.r1 c.clock := by
            intro i hi hik
            by_cases him : i < m
            · have := hev i hi him
              linarith
            · have := hbnd2 i hi (by omega) hik
              linarith
          cases hin : c.inner with
          | error e =>
            rw [hin] at hh
            simp only [Option.some.injEq, Prod.mk.injEq] at hh
            obtain ⟨hst1, hres2, htE⟩ := hh
            subst hres2
            have hCounted : Counted evs = Counted evs2 := by
              rw [← hevs]
              simp [Counted]
            rw [hCounted]
            refine ih st1 (chainLast c.r1 c.clock) stF2 evs2 A (m + k) hr ?_ ?_ hmk
              ?_ hok
            · rw [← hst1]
              exact hv.2
            · rw [← hst1]
              exact hdropk2
            · intro i hi hik
              exact hev' i hi hik
          | ok rr =>
            rw [hin] at hh
            simp only [Option.some.injEq, Prod.mk.injEq] at hh
            obtain ⟨hst1, hres2, htE⟩ := hh
            subst hres2
            have hCounted : Counted evs = tEnd :: Counted evs2 := by
              rw [← hevs]
              simp [Counted]
            rw [← htE] at hCounted
            have hAlen : A.length < m + k + M := by
              have : hl.length = A.length - (m + k) := by
                rw [hdropk2, List.length_drop]
              omega
            have hok' : WindowOK M P (A ++ [tE]) := by
              apply WindowOK_append M P hM A tE hok
              intro i hi hiM
              have hik : i < m + k := by omega
              by_cases him : i < m
              · have := hev i hi him
                linarith
              · have := hbnd2 i hi (by omega) hik
                linarith
            have hval' : validRun deb st1.prev (chainLast c.r1 c.clock) cs = true := by
              rw [← hst1]
              exact hv.2
            have hhist' : st1.history = (A ++ [tE]).drop (m + k) := by
              rw [← hst1]
              simp only
              rw [hdropk2, List.drop_append_of_le_length hmk]
            have hm' : m + k ≤ (A ++ [tE]).length := by
              simp only [List.length_append, List.length_cons, List.length_nil]
              omega
            have hev2 : ∀ (i : Nat) (hi : i < (A ++ [tE]).length), i < m + k →
                (A ++ [tE]).get ⟨i, hi⟩ + P < chainLast c.r1 c.clock := by
              intro i hi hik
              have hiA : i < A.length := by omega
              have hgi : (A ++ [tE]).get ⟨i, hi⟩ = A.get ⟨i, hiA⟩ := by
                simp [List.getElem_append_left, hiA]
              rw [hgi]
              exact hev' i hiA hik
            have hres := ih st1 (chainLast c.r1 c.clock) stF2 evs2 (A ++ [tE])
              (m + k) hr hval' hhist' hm' hev2 hok'
            rw [hCounted]
            have hassoc : A ++ tE :: Counted evs2 = (A ++ [tE]) ++ Counted evs2 := by
              simp
            rw [hassoc]
            exact hres

theorem windowCount_le (M : Nat) (P : ℚ) (hM : 0 < M) :
    ∀ (A : List ℚ), WindowOK M P A → ∀ t, windowCount P A t ≤ M := by
  intro A
  induction A with
  | nil => intro _ t; simp [windowCount]
  | cons a A2 ih =>
    intro hok t
    have hok2 : WindowOK M P A2 := by
      intro i j hi hj hij
      have h := hok (i + 1) (j + 1) (by simpa using Nat.succ_lt_succ hi)
        (by simpa using Nat.succ_lt_succ hj) (by omega)
      simpa using h
    by_cases hw : inWindow P t a = true
    · obtain ⟨hw1, hw2⟩ : t - P < a ∧ a ≤ t := by
        simpa [inWindow, Bool.and_eq_true, decide_eq_true_eq] using hw
      have hdropnil : (A2.drop (M - 1)).filter (inWindow P t) = [] := by
        apply List.filter_eq_nil_iff.mpr
        intro e he
        obtain ⟨n, hn, hget⟩ := List.mem_iff_getElem.mp he
        have hn2 : n < A2.length - (M - 1) := by
          simpa [List.length_drop] using hn
        have hidx : M - 1 + n < A2.length := by omega
        have he2 : e = A2.get ⟨M - 1 + n, hidx⟩ := by
          rw [← hget]
          simp [List.getElem_drop]
        have hidx3 : M - 1 + n + 1 < (a :: A2).length := by
          simp
          omega
        have hrel := hok 0 (M - 1 + n + 1) (by simp) hidx3 (by omega)
        have hget0 : (a :: A2).get ⟨0, by simp⟩ = a := rfl
        have hgetS : (a :: A2).get ⟨M - 1 + n + 1, hidx3⟩ = A2.get ⟨M - 1 + n, hidx⟩ := by
          simp
        rw [hget0, hgetS] at hrel
        rw [← he2] at hrel
        simp only [inWindow, Bool.and_eq_true, decide_eq_true_eq, not_and]
        intro h1
        linarith
      have hcount2 : windowCount P A2 t ≤ M - 1 := by
        unfold windowCount
        have hsplit : A2.filter (inWindow P t)
            = (A2.take (M - 1)).filter (inWindow P t)
              ++ (A2.drop (M - 1)).filter (inWindow P t) := by
          rw [← List.filter_append, List.take_append_drop]
        rw [hsplit, hdropnil, List.append_nil]
        calc ((A2.take (M - 1)).filter (inWindow P t)).length
            ≤ (A2.take (M - 1)).length := List.length_filter_le _ _
          _ ≤ M - 1 := by simpa using List.length_take_le (M - 1) A2
      have hcons : windowCount P (a :: A2) t = windowCount P A2 t + 1 := by
        simp [windowCount, List.filter_cons, hw]
      omega
    · have hcons : windowCount P (a :: A2) t = windowCount P A2 t := by
        have hwf : inWindow P t a = false := by simpa using hw
        simp [windowCount, List.filter_cons, hwf]
      rw [hcons]
      exact ih hok2 t

/-- C3: for every sequence of calls admitted through one RateLimit transport
instance with parameters (max_requests = M, request_period = P), and every
trailing window of length P, at most M successfully-counted calls carry a
history timestamp inside that window. -/
theorem RateLimit.window_bound (M : Nat) (P : ℚ) (hM : 0 < M) (c0 : ℚ)
    (calls : List (CallIn ε ρ)) (stF : RLState) (evs : List (ℚ × Option ℚ))
    (hrun : runCalls M P (RateLimit.init c0) calls = some (stF, evs))
    (hval : validRun (RateLimit.debounceInterval M P) c0 c0 calls = true) :
    ∀ t : ℚ, windowCount P (Counted evs) t ≤ M := by
  have hwok : WindowOK M P ([] ++ Counted evs) :=
    runCalls_window_inv M P (RateLimit.debounceInterval M P) hM calls
      (RateLimit.init c0) c0 stF evs [] 0 hrun hval rfl (by simp)
      (by intro i hi hik; simp at hi) (by intro i j hi hj hij; simp at hi)
  rw [List.nil_append] at hwok
  exact windowCount_le M P hM (Counted evs) hwok

/-- C3 witness: max_requests 1, request_period 1; the second call is
admitted only because the first timestamp slid out of the window. -/
theorem RateLimit.window_bound_witness :
    windowCount 1 (Counted [((1 : ℚ), some (1 : ℚ)), ((3 : ℚ), some (3 : ℚ))]) 3 ≤ 1 :=
  RateLimit.window_bound 1 1 (by norm_num) 0
    ([⟨1, 1, [], Except.ok ()⟩, ⟨3, 3, [], Except.ok ()⟩] : List (CallIn Unit Unit))
    { history := [3], prev := 3 } [(1, some 1), (3, some 3)]
    (by norm_num [runCalls, RateLimit.handle_request, admitLoop, evict, RateLimit.init])
    (by norm_num [validRun, validCall, chainMono, chainLast, debounceWait,
                  RateLimit.debounceInterval]) 3
